import Mathlib

/-!
Verification of the snapshot-ingestion core of a vMix companion module.

The embedding covers:
* `JVal` — the dynamic JavaScript values exchanged between the XML adapters
  and the canonicalizer (null, scalars, arrays, objects with ordered keys);
* `normalizeToXml2jsFormat` — the canonicalization pass of
  `src/xml/fxpAdapter.ts`, translated case by case from the source;
* a state model of `RustWasmAdapter` (`src/xml/rustWasmAdapter.ts`): module
  resolution over three probe locations, the load started in the constructor,
  memoization through the `wasm` / `loadPromise` fields, and the `parse` path;
* the two fast-xml-parser adapter variants (plain and normalizing) over an
  abstract third-party parser, and a spec-level model of the two third-party
  parser libraries for the adapter-equivalence property.
-/

namespace VmixSpec

/-- A dynamic JavaScript value as the adapters produce and consume them:
`null`/`undefined` (collapsed into one case, as the source treats them
identically), string/number/boolean scalars, arrays, and objects whose
entries keep insertion order (the order `Object.entries` enumerates). -/
inductive JVal where
  | null : JVal
  | str : String → JVal
  | num : Int → JVal
  | bool : Bool → JVal
  | arr : List JVal → JVal
  | obj : List (String × JVal) → JVal
deriving Repr, Inhabited

namespace JVal

/-- `true` exactly on the values the source's final `else` branches treat as
scalars: not `null`, not an array, and not an object.  (In the source this is
the fall-through after `obj === null`, `Array.isArray(obj)` and
`typeof obj === 'object'` all failed.) -/
def isScalar : JVal → Bool
  | .str _ => true
  | .num _ => true
  | .bool _ => true
  | _ => false

end JVal

mutual
/-- `normalizeToXml2jsFormat` from `src/xml/fxpAdapter.ts`, lines 26–57:

* `null`/`undefined` input is returned as is;
* an array is mapped element-wise;
* an object is rebuilt entry by entry (see `normalizeEntryValue`);
* anything else is a scalar and is wrapped in a one-element array. -/
def normalizeToXml2jsFormat : JVal → JVal
  | .null => .null
  | .arr items => .arr (normalizeItems items)
  | .obj entries => .obj (normalizeEntries entries)
  | .str s => .arr [.str s]
  | .num n => .arr [.num n]
  | .bool b => .arr [.bool b]

/-- Element-wise recursion of `obj.map((item) => this.normalizeToXml2jsFormat(item))`. -/
def normalizeItems : List JVal → List JVal
  | [] => []
  | item :: rest => normalizeToXml2jsFormat item :: normalizeItems rest

/-- The `for (const [key, value] of Object.entries(obj))` loop: each entry is
rewritten by `normalizeEntryValue`, in enumeration order. -/
def normalizeEntries : List (String × JVal) → List (String × JVal)
  | [] => []
  | (k, v) :: rest => (k, normalizeEntryValue k v) :: normalizeEntries rest

/-- One iteration of the entry loop, keyed on the branch taken in the source:
the `'$'` (attributes) key keeps its value as is; an array value has its items
normalized in place; a non-null object value is normalized and wrapped in a
one-element array; any remaining value (a scalar, or `null` — for which
`typeof value === 'object' && value !== null` is false) is wrapped raw in a
one-element array. -/
def normalizeEntryValue (k : String) (v : JVal) : JVal :=
  if k = "$" then v
  else
    match v with
    | .arr items => .arr (normalizeItems items)
    | .obj entries => .arr [.obj (normalizeEntries entries)]
    | other => .arr [other]
end

/-- The case analysis of spec §4.2 for one object entry, written from the
spec's words (attributes key passed through; sequence values normalized
element by element; non-scalar values normalized then wrapped; scalar values
wrapped), with the recursive normalization abstracted as `f`. -/
def specCaseEntry (f : JVal → JVal) (e : String × JVal) : String × JVal :=
  (e.1,
    if e.1 = "$" then e.2
    else
      match e.2 with
      | .arr items => .arr (items.map f)
      | v => if v.isScalar then .arr [v] else .arr [f v])

mutual
/-- `true` when every scalar leaf of the tree sits inside the value of an
attributes (`'$'`) key — the subtrees the canonicalizer passes through
verbatim.  Bare scalars anywhere else are re-wrapped on a second pass. -/
def noBareScalar : JVal → Bool
  | .null => true
  | .str _ => false
  | .num _ => false
  | .bool _ => false
  | .arr items => noBareScalarList items
  | .obj entries => noBareScalarEntries entries

def noBareScalarList : List JVal → Bool
  | [] => true
  | v :: rest => noBareScalar v && noBareScalarList rest

def noBareScalarEntries : List (String × JVal) → Bool
  | [] => true
  | (k, v) :: rest =>
    (if k = "$" then true else noBareScalar v) && noBareScalarEntries rest
end

mutual
/-- The canonical-shape invariant read strictly: in every mapping node of the
tree — including mapping nodes that sit inside the value of an attributes
(`'$'`) key — every value under a key other than `'$'` is an array, and the
check recurses into every subtree. -/
def strictCanonical : JVal → Bool
  | .arr items => strictCanonicalList items
  | .obj entries => strictCanonicalEntries entries
  | _ => true

def strictCanonicalList : List JVal → Bool
  | [] => true
  | v :: rest => strictCanonical v && strictCanonicalList rest

def strictCanonicalEntries : List (String × JVal) → Bool
  | [] => true
  | (k, v) :: rest =>
    (if k = "$" then strictCanonical v
     else
       match v with
       | .arr items => strictCanonicalList items
       | _ => false) && strictCanonicalEntries rest
end

mutual
/-- The canonical-shape invariant of spec §4.2: in every mapping node, every
value under a key other than the attributes key `'$'` is an array whose items
recursively satisfy the invariant.  Attribute (`'$'`) subtrees are exempt:
they are attribute content, not element children, and the canonicalizer
passes them through verbatim. -/
def canonicalShape : JVal → Bool
  | .arr items => canonicalShapeList items
  | .obj entries => canonicalShapeEntries entries
  | _ => true

def canonicalShapeList : List JVal → Bool
  | [] => true
  | v :: rest => canonicalShape v && canonicalShapeList rest

def canonicalShapeEntries : List (String × JVal) → Bool
  | [] => true
  | (k, v) :: rest =>
    (if k = "$" then true
     else
       match v with
       | .arr items => canonicalShapeList items
       | _ => false) && canonicalShapeEntries rest
end

mutual
/-- Nesting depth of a value: scalars and `null` have depth 0, an array or
object is one deeper than its deepest child. -/
def depth : JVal → Nat
  | .arr items => 1 + depthList items
  | .obj entries => 1 + depthEntries entries
  | _ => 0

def depthList : List JVal → Nat
  | [] => 0
  | v :: rest => Nat.max (depth v) (depthList rest)

def depthEntries : List (String × JVal) → Nat
  | [] => 0
  | (_, v) :: rest => Nat.max (depth v) (depthEntries rest)
end

mutual
/-- Fuel-indexed unfolding of the canonicalizer's recursion: each nesting
level of the recursive call tree consumes one unit of fuel, and the function
answers `none` when the fuel runs out before the recursion bottoms out.  The
branches mirror `normalizeToXml2jsFormat` exactly. -/
def normalizeFuel : Nat → JVal → Option JVal
  | 0, _ => none
  | _ + 1, .null => some .null
  | _ + 1, .str s => some (.arr [.str s])
  | _ + 1, .num n => some (.arr [.num n])
  | _ + 1, .bool b => some (.arr [.bool b])
  | fuel + 1, .arr items => (normalizeFuelItems fuel items).map JVal.arr
  | fuel + 1, .obj entries => (normalizeFuelEntries fuel entries).map JVal.obj
termination_by fuel t => (fuel, sizeOf t)

def normalizeFuelItems : Nat → List JVal → Option (List JVal)
  | _, [] => some []
  | fuel, v :: rest =>
    match normalizeFuel fuel v, normalizeFuelItems fuel rest with
    | some v', some rest' => some (v' :: rest')
    | _, _ => none
termination_by fuel l => (fuel, sizeOf l)

def normalizeFuelEntries : Nat → List (String × JVal) → Option (List (String × JVal))
  | _, [] => some []
  | fuel, (k, v) :: rest =>
    match normalizeFuelEntryValue fuel k v, normalizeFuelEntries fuel rest with
    | some v', some rest' => some ((k, v') :: rest')
    | _, _ => none
termination_by fuel l => (fuel, sizeOf l)

def normalizeFuelEntryValue (fuel : Nat) (k : String) (v : JVal) : Option JVal :=
  if k = "$" then some v
  else
    match v with
    | .arr items => (normalizeFuelItems fuel items).map JVal.arr
    | .obj entries =>
      (normalizeFuelEntries fuel entries).map (fun l => JVal.arr [JVal.obj l])
    | other => some (.arr [other])
termination_by (fuel, sizeOf v)
end

/-! ### The dynamically loaded (Rust WASM) adapter, `src/xml/rustWasmAdapter.ts` -/

/-- What the dynamic loader can observe of a loaded module object: whether it
exposes a `default` initializer, whether that initializer resolves or throws,
whether it exports a `parse` function, and what that function returns. -/
structure WasmModule where
  hasDefaultInit : Bool
  defaultInitOk : Bool
  hasParseExport : Bool
  parseImpl : String → JVal

/-- The three `require` targets `loadWasm` probes, in source order: the
production build under the module directory, the development path under the
process working directory, and a user-placed sibling wrapper. -/
inductive WasmLoc where
  | prod : WasmLoc
  | dev : WasmLoc
  | sibling : WasmLoc
deriving DecidableEq, Repr

/-- The filesystem as `loadWasm` sees it: which of the three probe locations
would yield a module if `require`d (`none` models a `require` that throws). -/
structure WasmEnv where
  prodModule : Option WasmModule
  devModule : Option WasmModule
  siblingModule : Option WasmModule

/-- What a `require` of the given location returns in this environment. -/
def WasmEnv.lookupLoc (env : WasmEnv) : WasmLoc → Option WasmModule
  | .prod => env.prodModule
  | .dev => env.devModule
  | .sibling => env.siblingModule

/-- The probe order the spec prescribes: production install location, then
development/source location, then the user-provided sibling module. -/
def probeOrder : List WasmLoc := [.prod, .dev, .sibling]

/-- The nested `try`/`catch` chain of `loadWasm` (lines 20–40): `require` the
production path; on failure the development path; on failure the sibling
module.  Returns the module found (if any) together with the locations
attempted, in the order they were attempted. -/
def resolveWasm (env : WasmEnv) : Option WasmModule × List WasmLoc :=
  match env.prodModule with
  | some m => (some m, [.prod])
  | none =>
    match env.devModule with
    | some m => (some m, [.prod, .dev])
    | none =>
      match env.siblingModule with
      | some m => (some m, [.prod, .dev, .sibling])
      | none => (none, [.prod, .dev, .sibling])

/-- Modelled from the spec: "resolved by probing, in order, a production
install location, then a development/source location, then a user-provided
sibling location; first reachable location wins".  Generic first-success
probing over an ordered candidate list, recording the attempted locations. -/
def probeFirst (f : WasmLoc → Option WasmModule) :
    List WasmLoc → Option WasmModule × List WasmLoc
  | [] => (none, [])
  | loc :: rest =>
    match f loc with
    | some m => (some m, [loc])
    | none =>
      let (r, att) := probeFirst f rest
      (r, loc :: att)

/-- The distinguishable failures of the dynamic adapter: the outer `catch` of
`loadWasm` (resolution or WASM initialization threw), the missing-`parse`
check at the end of `loadWasm`, and the availability check in `parse`. -/
inductive WasmError where
  | loadFailed : WasmError
  | missingParseExport : WasmError
  | notAvailable : WasmError
deriving DecidableEq, Repr

/-- The settled outcome of one run of `loadWasm` (lines 14–53): resolution
failure or a throwing `default` initializer surfaces as the outer `catch`'s
"Failed to load Rust WASM module" error; a module without a `parse` export
surfaces as "does not export parse function"; otherwise the module loads. -/
def loadWasmOutcome (env : WasmEnv) : Except WasmError WasmModule :=
  match (resolveWasm env).1 with
  | none => .error .loadFailed
  | some m =>
    if m.hasDefaultInit && !m.defaultInitOk then .error .loadFailed
    else if !m.hasParseExport then .error .missingParseExport
    else .ok m

/-- The mutable fields of a `RustWasmAdapter` instance, plus an instrumented
count of how many `loadWasm` runs have been started.  `loadPromise` holds the
pending load promise together with its eventual settled outcome; `wasm`
mirrors the `this.wasm` field (assigned as soon as a `require` succeeds, even
when a later step of the load fails). -/
structure RustWasmAdapter where
  wasm : Option WasmModule
  loadPromise : Option (Except WasmError WasmModule)
  loadsStarted : Nat

/-- The constructor (lines 7–9): it starts the one and only `loadWasm` run
eagerly and stores its promise in `loadPromise`. -/
def RustWasmAdapter.construct (env : WasmEnv) : RustWasmAdapter :=
  { wasm := (resolveWasm env).1
    loadPromise := some (loadWasmOutcome env)
    loadsStarted := 1 }

/-- The body of `parse` after the `await` (lines 62–67): the availability
check on `this.wasm` and its `parse` export, then the call into the module. -/
def RustWasmAdapter.parseBody (a : RustWasmAdapter) (xml : String) :
    RustWasmAdapter × Except WasmError JVal :=
  match a.wasm with
  | some m =>
    if m.hasParseExport then (a, .ok (m.parseImpl xml))
    else (a, .error .notAvailable)
  | none => (a, .error .notAvailable)

/-- `parse` (lines 55–68): if a load promise is pending, await it — a
rejected promise re-throws here, and the `this.loadPromise = null` line is
skipped, so the rejected promise stays in place for later callers; on a
fulfilled promise the field is cleared.  No branch ever starts a new load. -/
def RustWasmAdapter.parse (a : RustWasmAdapter) (xml : String) :
    RustWasmAdapter × Except WasmError JVal :=
  match a.loadPromise with
  | some (.error e) => (a, .error e)
  | some (.ok _) => ({ a with loadPromise := none }).parseBody xml
  | none => a.parseBody xml

/-- A whole sequence of `parse` calls on one adapter instance, threading the
instance state and collecting each call's outcome. -/
def parseRuns (a : RustWasmAdapter) : List String → RustWasmAdapter × List (Except WasmError JVal)
  | [] => (a, [])
  | xml :: rest =>
    let (a', r) := a.parse xml
    let (a'', rs) := parseRuns a' rest
    (a'', r :: rs)

/-! ### The two fast-xml-parser adapter variants -/

/-- The `XMLParser` options record, with the fields the adapters set. -/
structure FxpOptions where
  ignoreAttributes : Bool
  allowBooleanAttributes : Bool
  parseAttributeValue : Bool
  trimValues : Bool
deriving DecidableEq, Repr

/-- The options the normalizing `FastXmlParserAdapter` constructor
(`src/xml/fxpAdapter.ts`, lines 8–13) passes to `new XMLParser`. -/
def fxpAdapterOptions : FxpOptions :=
  { ignoreAttributes := false
    allowBooleanAttributes := true
    parseAttributeValue := true
    trimValues := false }

/-- The options the plain `FastXmlParserAdapter` constructor (the
un-normalized variant of the same file) passes to `new XMLParser`. -/
def fxpPlainAdapterOptions : FxpOptions :=
  { ignoreAttributes := false
    allowBooleanAttributes := true
    parseAttributeValue := true
    trimValues := false }

/-- `FastXmlParserAdapter.parse` of the normalizing variant
(`src/xml/fxpAdapter.ts`, lines 16–21): run the third-party parser — taken
abstract here as any function `lib` of the options and the raw text — over
the constructor's options, then post-process with `normalizeToXml2jsFormat`. -/
def FastXmlParserAdapter.parse (lib : FxpOptions → String → JVal) (xml : String) : JVal :=
  normalizeToXml2jsFormat (lib fxpAdapterOptions xml)

/-- `FastXmlParserAdapter.parse` of the plain variant: the third-party
parser's output over the constructor's options, returned as is. -/
def FastXmlParserAdapterPlain.parse (lib : FxpOptions → String → JVal) (xml : String) : JVal :=
  lib fxpPlainAdapterOptions xml

/-! ### Spec-level model of the two third-party tree-building parsers

The libraries behind variant A (`xml2js`, `src/xml/xml2jsAdapter.ts`) and
variant B (`fast-xml-parser`) are not part of this repository; for the
adapter-equivalence property they are modelled from the spec's description of
their output shapes (spec §4.1). -/

/-- An abstract raw markup node: a text node, or an element carrying
attributes and child elements already grouped by tag name (the grouping both
libraries perform). -/
inductive RawXml where
  | text : String → RawXml
  | elem : List (String × String) → List (String × List RawXml) → RawXml

/-- Boolean-looking text coerced to a boolean, anything else kept as text —
the coercion spec §4.1 attributes to variant A's library. -/
def coerceBooleans (s : String) : JVal :=
  if s = "true" then .bool true
  else if s = "false" then .bool false
  else .str s

/-- The attribute map placed under the `'$'` key, shared by both modelled
libraries (the spec holds attributes separately from child content). -/
def rawAttrs (attrs : List (String × String)) : JVal :=
  .obj (attrs.map fun p => (p.1, JVal.str p.2))

mutual
/-- Modelled from the spec: variant A's library (`xml2js`), whose
"library-native output already shapes repeated elements as sequences and
coerces boolean-looking text" — every tag's occurrences become an array,
however many there are, and text is passed through `coerceBooleans`. -/
def xml2jsTree : RawXml → JVal
  | .text s => coerceBooleans s
  | .elem attrs children => .obj (("$", rawAttrs attrs) :: xml2jsChildren children)

def xml2jsChildren : List (String × List RawXml) → List (String × JVal)
  | [] => []
  | (tag, kids) :: rest => (tag, .arr (xml2jsList kids)) :: xml2jsChildren rest

def xml2jsList : List RawXml → List JVal
  | [] => []
  | k :: ks => xml2jsTree k :: xml2jsList ks
end

mutual
/-- Modelled from the spec: variant B's library (`fast-xml-parser`), whose
"library-native output collapses single children to scalars and leaves text
un-coerced" — a tag with exactly one occurrence maps to that child's value
directly, and text stays a raw string. -/
def fxpTree : RawXml → JVal
  | .text s => .str s
  | .elem attrs children => .obj (("$", rawAttrs attrs) :: fxpChildren children)

def fxpChildren : List (String × List RawXml) → List (String × JVal)
  | [] => []
  | (tag, kids) :: rest => (tag, fxpCollapse kids) :: fxpChildren rest

/-- The collapse rule: a tag that occurred exactly once maps to that single
child's value directly; zero or several occurrences stay an array. -/
def fxpCollapse : List RawXml → JVal
  | [k] => fxpTree k
  | [] => .arr []
  | k1 :: k2 :: ks => .arr (fxpTree k1 :: fxpTree k2 :: fxpList ks)

def fxpList : List RawXml → List JVal
  | [] => []
  | k :: ks => fxpTree k :: fxpList ks
end

mutual
/-- The raw documents on which the two modelled libraries agree after
normalization: no element tag is the reserved attributes key `'$'`, and every
text node is the only child of its parent and is not boolean-looking.  (A
bare text node standing alone is not such a document.) -/
def eqSafe : RawXml → Bool
  | .text _ => false
  | .elem _ children => eqSafeChildren children

def eqSafeChildren : List (String × List RawXml) → Bool
  | [] => true
  | (tag, kids) :: rest => !(tag == "$") && (eqSafeKids kids && eqSafeChildren rest)

/-- One tag's occurrence list: a single child may be a non-boolean-looking
text node or a safe element; in a list of two or more occurrences every
occurrence must be a safe element (text nodes are never safe there). -/
def eqSafeKids : List RawXml → Bool
  | [] => true
  | [k] => eqSafeSingle k
  | k1 :: k2 :: ks => eqSafe k1 && (eqSafe k2 && eqSafeList ks)

/-- A tag's only child: text is fine unless boolean-looking; an element must
be safe throughout. -/
def eqSafeSingle : RawXml → Bool
  | .text s => !(s == "true") && !(s == "false")
  | .elem _ children => eqSafeChildren children

def eqSafeList : List RawXml → Bool
  | [] => true
  | k :: ks => eqSafe k && eqSafeList ks
end

/-! ## Induction principles

`JVal` and `RawXml` nest lists, so the needed induction principles are proved
by hand, by well-founded recursion on `sizeOf`. -/

theorem JVal.memInduction {motive : JVal → Prop}
    (hnull : motive .null)
    (hstr : ∀ s, motive (.str s))
    (hnum : ∀ n, motive (.num n))
    (hbool : ∀ b, motive (.bool b))
    (harr : ∀ items, (∀ v ∈ items, motive v) → motive (.arr items))
    (hobj : ∀ entries, (∀ p ∈ entries, motive p.2) → motive (.obj entries)) :
    ∀ t, motive t
  | .null => hnull
  | .str s => hstr s
  | .num n => hnum n
  | .bool b => hbool b
  | .arr items => harr items (fun v hv =>
      JVal.memInduction hnull hstr hnum hbool harr hobj v)
  | .obj entries => hobj entries (fun p hp =>
      JVal.memInduction hnull hstr hnum hbool harr hobj p.2)
termination_by t => sizeOf t
decreasing_by
  · have := List.sizeOf_lt_of_mem hv
    simp only [JVal.arr.sizeOf_spec]
    omega
  · have h1 := List.sizeOf_lt_of_mem hp
    obtain ⟨a, b⟩ := p
    simp only [JVal.obj.sizeOf_spec, Prod.mk.sizeOf_spec] at *
    omega

theorem RawXml.elemInduction {motive : RawXml → Prop}
    (htext : ∀ s, motive (.text s))
    (helem : ∀ attrs children,
      (∀ p ∈ children, ∀ k ∈ p.2, motive k) → motive (.elem attrs children)) :
    ∀ t, motive t
  | .text s => htext s
  | .elem attrs children => helem attrs children (fun p hp k hk =>
      RawXml.elemInduction htext helem k)
termination_by t => sizeOf t
decreasing_by
  have h1 := List.sizeOf_lt_of_mem hk
  have h2 := List.sizeOf_lt_of_mem hp
  obtain ⟨tag, kids⟩ := p
  simp only [RawXml.elem.sizeOf_spec, Prod.mk.sizeOf_spec] at *
  omega

/-! ## Basic lemmas about the canonicalizer's helpers -/

theorem normalizeItems_eq_map (l : List JVal) :
    normalizeItems l = l.map normalizeToXml2jsFormat := by
  induction l with
  | nil => rfl
  | cons v rest ih => simp [normalizeItems, ih]

theorem normalizeEntries_eq_map (l : List (String × JVal)) :
    normalizeEntries l = l.map (fun p => (p.1, normalizeEntryValue p.1 p.2)) := by
  induction l with
  | nil => rfl
  | cons p rest ih =>
    obtain ⟨k, v⟩ := p
    simp [normalizeEntries, ih]

theorem noBareScalarList_iff (l : List JVal) :
    noBareScalarList l = true ↔ ∀ v ∈ l, noBareScalar v = true := by
  induction l with
  | nil => simp [noBareScalarList]
  | cons v rest ih => simp [noBareScalarList, ih]

theorem noBareScalarEntries_iff (l : List (String × JVal)) :
    noBareScalarEntries l = true ↔
      ∀ p ∈ l, p.1 = "$" ∨ noBareScalar p.2 = true := by
  induction l with
  | nil => simp [noBareScalarEntries]
  | cons p rest ih =>
    obtain ⟨k, v⟩ := p
    by_cases hk : k = "$" <;> simp [noBareScalarEntries, hk, ih]

theorem canonicalShapeList_iff (l : List JVal) :
    canonicalShapeList l = true ↔ ∀ v ∈ l, canonicalShape v = true := by
  induction l with
  | nil => simp [canonicalShapeList]
  | cons v rest ih => simp [canonicalShapeList, ih]

theorem canonicalShapeEntries_iff (l : List (String × JVal)) :
    canonicalShapeEntries l = true ↔
      ∀ p ∈ l, p.1 = "$" ∨
        ∃ items, p.2 = .arr items ∧ canonicalShapeList items = true := by
  induction l with
  | nil => simp [canonicalShapeEntries]
  | cons p rest ih =>
    obtain ⟨k, v⟩ := p
    by_cases hk : k = "$"
    · cases v <;> simp [canonicalShapeEntries, ih, hk]
    · cases v <;> simp [canonicalShapeEntries, ih, hk]

theorem normalizeEntryValue_dollar (v : JVal) : normalizeEntryValue "$" v = v := by
  unfold normalizeEntryValue
  simp

/-! ## C3: the canonicalizer's case analysis -/

theorem normalizeEntryValue_eq_specCaseEntry (k : String) (v : JVal) :
    (k, normalizeEntryValue k v) = specCaseEntry normalizeToXml2jsFormat (k, v) := by
  by_cases hk : k = "$"
  · simp [normalizeEntryValue_dollar, specCaseEntry, hk]
  · cases v <;>
      simp [normalizeEntryValue, specCaseEntry, hk, JVal.isScalar,
        normalizeItems_eq_map, normalizeToXml2jsFormat]

/-- C3: `normalizeToXml2jsFormat` implements exactly the specified case
analysis — `null` passes through unchanged; a sequence is mapped element-wise
(order and length preserved by `List.map`); a mapping is rebuilt entry by
entry following spec §4.2's cases (attributes key untouched, sequence values
normalized in place, non-scalar values normalized then wrapped, scalar values
wrapped — see `specCaseEntry`, written from the spec's words); a top-level
scalar is wrapped in a one-element sequence. -/
theorem normalize_case_analysis :
    normalizeToXml2jsFormat .null = .null ∧
    (∀ items, normalizeToXml2jsFormat (.arr items) =
      .arr (items.map normalizeToXml2jsFormat)) ∧
    (∀ entries, normalizeToXml2jsFormat (.obj entries) =
      .obj (entries.map (specCaseEntry normalizeToXml2jsFormat))) ∧
    (∀ s, normalizeToXml2jsFormat (.str s) = .arr [.str s]) ∧
    (∀ n, normalizeToXml2jsFormat (.num n) = .arr [.num n]) ∧
    (∀ b, normalizeToXml2jsFormat (.bool b) = .arr [.bool b]) := by
  refine ⟨rfl, ?_, ?_, fun _ => rfl, fun _ => rfl, fun _ => rfl⟩
  · intro items
    simp [normalizeToXml2jsFormat, normalizeItems_eq_map]
  · intro entries
    simp only [normalizeToXml2jsFormat, normalizeEntries_eq_map]
    congr 1
    exact List.map_congr_left fun p _ => normalizeEntryValue_eq_specCaseEntry p.1 p.2

/-! ## C1: idempotence of the canonicalizer -/

/-- C1 counterexample: the canonicalizer is not idempotent.  Normalizing
`{title: "Cam1"}` twice wraps the title a second time; and the canonical-form
tree `{title: ["Cam1"]}` (the first normalization's own output) is itself
changed when canonicalized again, so canonicalizing an already-canonical tree
does not, in general, yield the same tree. -/
theorem normalize_idempotent_cex :
    normalizeToXml2jsFormat
        (normalizeToXml2jsFormat (JVal.obj [("title", .str "Cam1")])) ≠
      normalizeToXml2jsFormat (JVal.obj [("title", .str "Cam1")]) ∧
    canonicalShape (JVal.obj [("title", .arr [.str "Cam1"])]) = true ∧
    normalizeToXml2jsFormat (JVal.obj [("title", .arr [.str "Cam1"])]) ≠
      JVal.obj [("title", .arr [.str "Cam1"])] := by
  refine ⟨?_, rfl, ?_⟩ <;>
    · intro h
      simp [normalizeToXml2jsFormat, normalizeEntries, normalizeEntryValue,
        normalizeItems] at h

/-- C1 amended: the canonicalizer is idempotent on trees whose scalar leaves
all sit inside attribute (`'$'`) values — the subtrees the pass leaves
untouched.  A bare scalar anywhere else (including inside a tree already in
canonical shape) is wrapped again by a second pass, so the hypothesis cannot
be dropped. -/
theorem normalize_idempotent_of_noBareScalar (t : JVal)
    (h : noBareScalar t = true) :
    normalizeToXml2jsFormat (normalizeToXml2jsFormat t) =
      normalizeToXml2jsFormat t := by
  induction t using JVal.memInduction with
  | hnull => rfl
  | hstr s => simp [noBareScalar] at h
  | hnum n => simp [noBareScalar] at h
  | hbool b => simp [noBareScalar] at h
  | harr items ih =>
    have hall := (noBareScalarList_iff items).mp (by simpa [noBareScalar] using h)
    simp only [normalizeToXml2jsFormat, normalizeItems_eq_map, List.map_map]
    congr 1
    exact List.map_congr_left fun v hv => ih v hv (hall v hv)
  | hobj entries ih =>
    have hall := (noBareScalarEntries_iff entries).mp (by simpa [noBareScalar] using h)
    simp only [normalizeToXml2jsFormat, normalizeEntries_eq_map, List.map_map]
    congr 1
    refine List.map_congr_left fun p hp => ?_
    obtain ⟨k, v⟩ := p
    simp only [Function.comp]
    by_cases hk : k = "$"
    · simp [normalizeEntryValue_dollar, hk]
    · rcases hall (k, v) hp with hc | hv
      · exact absurd hc hk
      · have ihv := ih (k, v) hp hv
        cases v with
        | null => simp [normalizeEntryValue, hk, normalizeItems, normalizeToXml2jsFormat]
        | str s => simp [noBareScalar] at hv
        | num n => simp [noBareScalar] at hv
        | bool b => simp [noBareScalar] at hv
        | arr items =>
          simp only [normalizeToXml2jsFormat, JVal.arr.injEq] at ihv
          simp [normalizeEntryValue, hk, ihv]
        | obj es =>
          simp only [normalizeToXml2jsFormat, JVal.obj.injEq] at ihv
          simp [normalizeEntryValue, hk, normalizeItems, normalizeToXml2jsFormat, ihv]

/-- C1 amended, witnessed at a concrete scalar-free tree (attributes under
`'$'`, one overlay child already wrapped). -/
theorem normalize_idempotent_of_noBareScalar_witness :
    noBareScalar
        (JVal.obj [("$", .obj [("key", .str "1")]), ("overlay", .arr [.obj []])]) =
        true ∧
      normalizeToXml2jsFormat (normalizeToXml2jsFormat
          (JVal.obj [("$", .obj [("key", .str "1")]), ("overlay", .arr [.obj []])])) =
        normalizeToXml2jsFormat
          (JVal.obj [("$", .obj [("key", .str "1")]), ("overlay", .arr [.obj []])]) :=
  ⟨rfl, normalize_idempotent_of_noBareScalar _ rfl⟩

/-! ## C2: the canonical-shape invariant of the output -/

/-- C2: every output of the canonicalizer is in canonical shape — in every
mapping node, every value under a key other than the attributes key `'$'` is
an array whose items recursively satisfy the same invariant, regardless of
how many children the input held under that key.  (Values under `'$'` are
attribute content, held separately from child content and passed through
verbatim, so the invariant — like the canonicalizer — does not descend into
them; `strictCanonical` documents the reading that would.) -/
theorem normalize_canonicalShape (t : JVal) :
    canonicalShape (normalizeToXml2jsFormat t) = true := by
  induction t using JVal.memInduction with
  | hnull => rfl
  | hstr s => rfl
  | hnum n => rfl
  | hbool b => rfl
  | harr items ih =>
    simp only [normalizeToXml2jsFormat, normalizeItems_eq_map, canonicalShape]
    exact (canonicalShapeList_iff _).mpr (by simpa using ih)
  | hobj entries ih =>
    simp only [normalizeToXml2jsFormat, canonicalShape]
    rw [canonicalShapeEntries_iff]
    intro p hp
    rw [normalizeEntries_eq_map] at hp
    obtain ⟨q, hq, rfl⟩ := List.mem_map.mp hp
    obtain ⟨k, v⟩ := q
    have hv := ih (k, v) hq
    by_cases hk : k = "$"
    · exact Or.inl hk
    · right
      cases v with
      | null =>
        exact ⟨[.null], by simp [normalizeEntryValue, hk, normalizeItems],
          by simp [canonicalShapeList, canonicalShape]⟩
      | str s =>
        exact ⟨[.str s], by simp [normalizeEntryValue, hk],
          by simp [canonicalShapeList, canonicalShape]⟩
      | num n =>
        exact ⟨[.num n], by simp [normalizeEntryValue, hk],
          by simp [canonicalShapeList, canonicalShape]⟩
      | bool b =>
        exact ⟨[.bool b], by simp [normalizeEntryValue, hk],
          by simp [canonicalShapeList, canonicalShape]⟩
      | arr items =>
        refine ⟨normalizeItems items, by simp [normalizeEntryValue, hk], ?_⟩
        simpa [normalizeToXml2jsFormat, canonicalShape] using hv
      | obj es =>
        refine ⟨[.obj (normalizeEntries es)],
          by simp [normalizeEntryValue, hk, normalizeItems], ?_⟩
        simp only [normalizeToXml2jsFormat] at hv
        simpa [canonicalShapeList, canonicalShape] using hv

/-! ## C9: normalization preserves keys, order, attributes and lengths -/

theorem normalizeEntries_keys (l : List (String × JVal)) :
    (normalizeEntries l).map Prod.fst = l.map Prod.fst := by
  simp [normalizeEntries_eq_map]

theorem normalizeEntries_dollar_getElem (l : List (String × JVal)) (i : Nat)
    (p : String × JVal) (hi : l[i]? = some p) (hd : p.1 = "$") :
    (normalizeEntries l)[i]? = some p := by
  induction l generalizing i with
  | nil => simp at hi
  | cons q rest ih =>
    obtain ⟨k, v⟩ := q
    cases i with
    | zero =>
      simp only [List.getElem?_cons_zero, Option.some.injEq] at hi
      subst hi
      have hk : k = "$" := hd
      subst hk
      simp [normalizeEntries, normalizeEntryValue_dollar]
    | succ j =>
      simp only [List.getElem?_cons_succ] at hi
      simpa [normalizeEntries] using ih j hi

theorem normalizeItems_length (l : List JVal) :
    (normalizeItems l).length = l.length := by
  simp [normalizeItems_eq_map]

/-- C9: the canonicalizer only rewrites values — a mapping input yields a
mapping with exactly the same keys in the same enumeration order, an entry
whose key is the attributes key `'$'` is preserved identically (key and
value), and a sequence input yields a sequence of the same length. -/
theorem normalize_frame :
    (∀ entries : List (String × JVal), ∃ l,
      normalizeToXml2jsFormat (.obj entries) = .obj l ∧
      l.map Prod.fst = entries.map Prod.fst ∧
      (∀ (i : Nat) (p : String × JVal),
        entries[i]? = some p → p.1 = "$" → l[i]? = some p)) ∧
    (∀ items : List JVal, ∃ l,
      normalizeToXml2jsFormat (.arr items) = .arr l ∧
      l.length = items.length) := by
  constructor
  · intro entries
    exact ⟨normalizeEntries entries, rfl, normalizeEntries_keys entries,
      fun i p hi hd => normalizeEntries_dollar_getElem entries i p hi hd⟩
  · intro items
    exact ⟨normalizeItems items, rfl, normalizeItems_length items⟩

/-- C9, witnessed on a concrete mapping and sequence (the `'$'` entry of the
mapping survives normalization at its position). -/
theorem normalize_frame_witness :
    (∃ l, normalizeToXml2jsFormat
        (.obj [("$", .str "a"), ("x", .num 3)]) = .obj l ∧
      l.map Prod.fst = ["$", "x"] ∧ l[0]? = some ("$", .str "a")) ∧
    (∃ l, normalizeToXml2jsFormat (.arr [.null, .num 1]) = .arr l ∧
      l.length = 2) := by
  obtain ⟨h1, h2⟩ := normalize_frame
  obtain ⟨l, hl, hkeys, hdollar⟩ := h1 [("$", .str "a"), ("x", .num 3)]
  refine ⟨⟨l, hl, hkeys, hdollar 0 ("$", .str "a") rfl rfl⟩, ?_⟩
  obtain ⟨l', hl', hlen⟩ := h2 [.null, .num 1]
  exact ⟨l', hl', hlen⟩

/-! ## C10: the canonicalizer's recursion terminates on every finite tree -/

theorem depthList_le_of_mem {l : List JVal} {v : JVal} (h : v ∈ l) :
    depth v ≤ depthList l := by
  induction l with
  | nil => simp at h
  | cons w rest ih =>
    rcases List.mem_cons.mp h with rfl | h'
    · simp [depthList, Nat.le_max_left]
    · exact le_trans (ih h') (by simp [depthList, Nat.le_max_right])

theorem depthEntries_le_of_mem {l : List (String × JVal)} {p : String × JVal}
    (h : p ∈ l) : depth p.2 ≤ depthEntries l := by
  induction l with
  | nil => simp at h
  | cons q rest ih =>
    obtain ⟨k, v⟩ := q
    rcases List.mem_cons.mp h with rfl | h'
    · simp [depthEntries, Nat.le_max_left]
    · exact le_trans (ih h') (by simp [depthEntries, Nat.le_max_right])

theorem normalizeFuelItems_eq (f : Nat) (l : List JVal)
    (h : ∀ v ∈ l, normalizeFuel f v = some (normalizeToXml2jsFormat v)) :
    normalizeFuelItems f l = some (normalizeItems l) := by
  induction l with
  | nil => simp [normalizeFuelItems, normalizeItems]
  | cons v rest ih =>
    have hv := h v (List.mem_cons_self _ _)
    have hr := ih fun w hw => h w (List.mem_cons_of_mem _ hw)
    simp [normalizeFuelItems, hv, hr, normalizeItems]

theorem normalizeFuelEntries_eq (f : Nat) (l : List (String × JVal))
    (h : ∀ p ∈ l, normalizeFuelEntryValue f p.1 p.2 =
      some (normalizeEntryValue p.1 p.2)) :
    normalizeFuelEntries f l = some (normalizeEntries l) := by
  induction l with
  | nil => simp [normalizeFuelEntries, normalizeEntries]
  | cons p rest ih =>
    obtain ⟨k, v⟩ := p
    have hv := h (k, v) (List.mem_cons_self _ _)
    have hr := ih fun q hq => h q (List.mem_cons_of_mem _ hq)
    simp only at hv
    simp [normalizeFuelEntries, hv, hr, normalizeEntries]

theorem normalizeFuel_complete (t : JVal) :
    ∀ f : Nat, depth t < f →
      normalizeFuel f t = some (normalizeToXml2jsFormat t) := by
  induction t using JVal.memInduction with
  | hnull =>
    intro f hf
    obtain ⟨f', rfl⟩ : ∃ f', f = f' + 1 := ⟨f - 1, by omega⟩
    simp [normalizeFuel, normalizeToXml2jsFormat]
  | hstr s =>
    intro f hf
    obtain ⟨f', rfl⟩ : ∃ f', f = f' + 1 := ⟨f - 1, by omega⟩
    simp [normalizeFuel, normalizeToXml2jsFormat]
  | hnum n =>
    intro f hf
    obtain ⟨f', rfl⟩ : ∃ f', f = f' + 1 := ⟨f - 1, by omega⟩
    simp [normalizeFuel, normalizeToXml2jsFormat]
  | hbool b =>
    intro f hf
    obtain ⟨f', rfl⟩ : ∃ f', f = f' + 1 := ⟨f - 1, by omega⟩
    simp [normalizeFuel, normalizeToXml2jsFormat]
  | harr items ih =>
    intro f hf
    obtain ⟨f', rfl⟩ : ∃ f', f = f' + 1 := ⟨f - 1, by omega⟩
    have hd : depthList items < f' := by
      simp only [depth] at hf
      omega
    have hitems : normalizeFuelItems f' items = some (normalizeItems items) :=
      normalizeFuelItems_eq f' items fun v hv =>
        ih v hv f' (lt_of_le_of_lt (depthList_le_of_mem hv) hd)
    simp [normalizeFuel, hitems, normalizeToXml2jsFormat]
  | hobj entries ih =>
    intro f hf
    obtain ⟨f', rfl⟩ : ∃ f', f = f' + 1 := ⟨f - 1, by omega⟩
    have hd : depthEntries entries < f' := by
      simp only [depth] at hf
      omega
    have hentries : normalizeFuelEntries f' entries =
        some (normalizeEntries entries) := by
      refine normalizeFuelEntries_eq f' entries fun p hp => ?_
      obtain ⟨k, v⟩ := p
      have hdv : depth v < f' :=
        lt_of_le_of_lt (depthEntries_le_of_mem hp) hd
      by_cases hk : k = "$"
      · subst hk
        cases v <;> simp [normalizeFuelEntryValue, normalizeEntryValue_dollar]
      · cases v with
        | null => simp [normalizeFuelEntryValue, hk, normalizeEntryValue]
        | str s => simp [normalizeFuelEntryValue, hk, normalizeEntryValue]
        | num n => simp [normalizeFuelEntryValue, hk, normalizeEntryValue]
        | bool b => simp [normalizeFuelEntryValue, hk, normalizeEntryValue]
        | arr items =>
          have h1 := ih (k, .arr items) hp (f' + 1) (Nat.lt_succ_of_lt hdv)
          simp only [normalizeFuel, normalizeToXml2jsFormat] at h1
          cases hX : normalizeFuelItems f' items with
          | none => rw [hX] at h1; simp at h1
          | some l =>
            rw [hX] at h1
            simp only [Option.map_some', Option.some.injEq, JVal.arr.injEq] at h1
            simp [normalizeFuelEntryValue, hk, hX, h1, normalizeEntryValue]
        | obj es =>
          have h1 := ih (k, .obj es) hp (f' + 1) (Nat.lt_succ_of_lt hdv)
          simp only [normalizeFuel, normalizeToXml2jsFormat] at h1
          cases hX : normalizeFuelEntries f' es with
          | none => rw [hX] at h1; simp at h1
          | some l =>
            rw [hX] at h1
            simp only [Option.map_some', Option.some.injEq, JVal.obj.injEq] at h1
            simp [normalizeFuelEntryValue, hk, hX, h1, normalizeEntryValue]
    simp [normalizeFuel, hentries, normalizeToXml2jsFormat]

/-- C10: the canonicalizer is total on finite trees — unfolding its recursion
with fuel one greater than the tree's nesting depth already reaches the
result, because every recursive call descends into a strict subterm (an array
element or an object entry's value), so the call tree is no deeper than the
tree itself. -/
theorem normalize_terminates (t : JVal) :
    normalizeFuel (depth t + 1) t = some (normalizeToXml2jsFormat t) :=
  normalizeFuel_complete t (depth t + 1) (Nat.lt_succ_self _)

/-! ## C5: dynamic-adapter resolution probes locations in order -/

/-- C5: the nested `require` fallback chain of `loadWasm` is exactly
first-success probing over the ordered candidate list production → development
→ sibling: the same module is found, the locations attempted are the same and
in the same order, and — by construction of `probeFirst` — no location is
attempted after one succeeds. -/
theorem resolveWasm_probes_in_order (env : WasmEnv) :
    resolveWasm env = probeFirst env.lookupLoc probeOrder := by
  obtain ⟨p, d, sib⟩ := env
  cases p <;> cases d <;> cases sib <;> rfl

/-! ## C4: one load, shared by every caller — but started eagerly -/

/-- C4 counterexample: the claim says no load starts before the first `parse`
call, but the constructor itself starts the (one and only) load — after
construction and zero `parse` calls, one load has already been started. -/
theorem rustWasm_load_not_lazy_cex :
    (RustWasmAdapter.construct ⟨none, none, none⟩).loadsStarted = 1 ∧
    (RustWasmAdapter.construct ⟨none, none, none⟩).loadsStarted ≠ 0 := by
  exact ⟨rfl, by simp [RustWasmAdapter.construct]⟩

theorem parseRuns_of_error (e : WasmError) (xmls : List String)
    (a : RustWasmAdapter) (h : a.loadPromise = some (.error e)) :
    parseRuns a xmls = (a, xmls.map fun _ => .error e) := by
  induction xmls with
  | nil => simp [parseRuns]
  | cons x rest ih =>
    simp [parseRuns, RustWasmAdapter.parse, h, ih]

theorem parseRuns_of_ready (m : WasmModule) (xmls : List String)
    (a : RustWasmAdapter) (hw : a.wasm = some m) (hp : m.hasParseExport = true)
    (hl : a.loadPromise = none) :
    parseRuns a xmls = (a, xmls.map fun x => .ok (m.parseImpl x)) := by
  induction xmls with
  | nil => simp [parseRuns]
  | cons x rest ih =>
    simp [parseRuns, RustWasmAdapter.parse, RustWasmAdapter.parseBody,
      hw, hp, hl, ih]

theorem loadWasmOutcome_ok_inv (env : WasmEnv) (m : WasmModule)
    (h : loadWasmOutcome env = .ok m) :
    (resolveWasm env).1 = some m ∧ m.hasParseExport = true := by
  unfold loadWasmOutcome at h
  cases hr : (resolveWasm env).1 with
  | none => rw [hr] at h; simp at h
  | some m' =>
    rw [hr] at h
    by_cases h1 : (m'.hasDefaultInit && !m'.defaultInitOk) = true
    · simp [h1] at h
    · by_cases h2 : m'.hasParseExport = true
      · simp [h1, h2] at h
        subst h
        exact ⟨rfl, h2⟩
      · simp [h1, h2] at h

theorem parseRuns_construct_ok (env : WasmEnv) (m : WasmModule)
    (xmls : List String) (h : loadWasmOutcome env = .ok m) :
    parseRuns (RustWasmAdapter.construct env) xmls =
      (if xmls.isEmpty then RustWasmAdapter.construct env
       else { RustWasmAdapter.construct env with loadPromise := none },
       xmls.map fun x => .ok (m.parseImpl x)) := by
  obtain ⟨hw, hp⟩ := loadWasmOutcome_ok_inv env m h
  cases xmls with
  | nil => simp [parseRuns]
  | cons x rest =>
    have hfirst : (RustWasmAdapter.construct env).parse x =
        ({ RustWasmAdapter.construct env with loadPromise := none },
          .ok (m.parseImpl x)) := by
      simp [RustWasmAdapter.parse, RustWasmAdapter.construct, h,
        RustWasmAdapter.parseBody, hw, hp]
    have hrest := parseRuns_of_ready m rest
      { RustWasmAdapter.construct env with loadPromise := none }
      (by simp [RustWasmAdapter.construct, hw]) hp rfl
    simp [parseRuns, hfirst, hrest]

/-- C4 amended: the `RustWasmAdapter` load is eager, not lazy — the
constructor starts exactly one load, and no `parse` call ever starts another
(the load counter stays at 1 over any sequence of `parse` calls).  The
memoization/sharing half of the claim does hold: every `parse` call awaits
that single load and observes its one settled outcome — if the load failed
with `e`, every call rejects with `e`; if it succeeded with module `m`, every
call returns `m`'s parse result. -/
theorem rustWasm_single_eager_load_shared_outcome (env : WasmEnv)
    (xmls : List String) :
    (parseRuns (RustWasmAdapter.construct env) xmls).1.loadsStarted = 1 ∧
    (∀ e, loadWasmOutcome env = .error e →
      (parseRuns (RustWasmAdapter.construct env) xmls).2 =
        xmls.map fun _ => .error e) ∧
    (∀ m, loadWasmOutcome env = .ok m →
      (parseRuns (RustWasmAdapter.construct env) xmls).2 =
        xmls.map fun x => .ok (m.parseImpl x)) := by
  refine ⟨?_, ?_, ?_⟩
  · cases h : loadWasmOutcome env with
    | error e =>
      rw [parseRuns_of_error e xmls _ (by simp [RustWasmAdapter.construct, h])]
      rfl
    | ok m =>
      rw [parseRuns_construct_ok env m xmls h]
      by_cases hx : xmls.isEmpty <;> simp [hx, RustWasmAdapter.construct]
  · intro e h
    rw [parseRuns_of_error e xmls _ (by simp [RustWasmAdapter.construct, h])]
  · intro m h
    rw [parseRuns_construct_ok env m xmls h]

/-- C4 amended, witnessed: with a loadable module in the production slot, two
`parse` calls leave the load counter at 1 and both return the module's
result. -/
theorem rustWasm_single_eager_load_shared_outcome_witness :
    (parseRuns (RustWasmAdapter.construct
        ⟨some ⟨false, true, true, fun _ => .null⟩, none, none⟩)
      ["a", "b"]).1.loadsStarted = 1 ∧
    (parseRuns (RustWasmAdapter.construct
        ⟨some ⟨false, true, true, fun _ => .null⟩, none, none⟩)
      ["a", "b"]).2 = [.ok .null, .ok .null] := by
  have h := rustWasm_single_eager_load_shared_outcome
    ⟨some ⟨false, true, true, fun _ => .null⟩, none, none⟩ ["a", "b"]
  exact ⟨h.1, h.2.2 ⟨false, true, true, fun _ => .null⟩ rfl⟩

/-! ## C6: an unavailable module is a distinct error and fails every parse -/

/-- C6: each way the configured dynamic adapter can fail to become available
surfaces as a distinct load error — no probe location yields a module
(`loadFailed`), the module's initializer throws (`loadFailed`), the loaded
module lacks a `parse` export (`missingParseExport`) — and when the load
failed, every `parse` call on the adapter rejects with that same error rather
than returning a result or substituting another adapter; a call returns a
result only when the one load succeeded with a module exporting `parse`, and
the result is that module's. -/
theorem rustWasm_unavailable_rejects (env : WasmEnv) (xmls : List String) :
    ((resolveWasm env).1 = none → loadWasmOutcome env = .error .loadFailed) ∧
    (∀ m, (resolveWasm env).1 = some m → m.hasDefaultInit = true →
      m.defaultInitOk = false → loadWasmOutcome env = .error .loadFailed) ∧
    (∀ m, (resolveWasm env).1 = some m →
      (m.hasDefaultInit && !m.defaultInitOk) = false → m.hasParseExport = false →
      loadWasmOutcome env = .error .missingParseExport) ∧
    (∀ e, loadWasmOutcome env = .error e →
      ∀ r ∈ (parseRuns (RustWasmAdapter.construct env) xmls).2, r = .error e) ∧
    (∀ (i : Nat) (v : JVal),
      ((parseRuns (RustWasmAdapter.construct env) xmls).2)[i]? = some (.ok v) →
      ∃ m x, loadWasmOutcome env = .ok m ∧ m.hasParseExport = true ∧
        xmls[i]? = some x ∧ v = m.parseImpl x) := by
  refine ⟨?_, ?_, ?_, ?_, ?_⟩
  · intro h
    unfold loadWasmOutcome
    rw [h]
  · intro m hm h1 h2
    unfold loadWasmOutcome
    rw [hm]
    simp [h1, h2]
  · intro m hm h1 h2
    unfold loadWasmOutcome
    rw [hm]
    simp [h1, h2]
  · intro e h r hr
    rw [parseRuns_of_error e xmls _ (by simp [RustWasmAdapter.construct, h])] at hr
    obtain ⟨a, ha, hfa⟩ := List.mem_map.mp hr
    exact hfa.symm
  · intro i v hi
    cases h : loadWasmOutcome env with
    | error e =>
      rw [parseRuns_of_error e xmls _
        (by simp [RustWasmAdapter.construct, h])] at hi
      simp only [List.getElem?_map] at hi
      cases hq : xmls[i]? with
      | none => rw [hq] at hi; simp at hi
      | some x => rw [hq] at hi; simp at hi
    | ok m =>
      obtain ⟨hw, hp⟩ := loadWasmOutcome_ok_inv env m h
      rw [parseRuns_construct_ok env m xmls h] at hi
      simp only [List.getElem?_map] at hi
      cases hx : xmls[i]? with
      | none => rw [hx] at hi; simp at hi
      | some x =>
        rw [hx] at hi
        simp only [Option.map_some', Option.some.injEq, Except.ok.injEq] at hi
        exact ⟨m, x, rfl, hp, rfl, hi.symm⟩

/-- C6, witnessed twice over concrete environments: an empty environment
makes the load fail and the first `parse` call reject with that same error; a
populated environment makes the first call return the loaded module's
result. -/
theorem rustWasm_unavailable_rejects_witness :
    loadWasmOutcome ⟨none, none, none⟩ = .error .loadFailed ∧
    (Except.error .loadFailed : Except WasmError JVal) = .error .loadFailed ∧
    (∃ m x, loadWasmOutcome
        ⟨some ⟨false, true, true, fun _ => .num 7⟩, none, none⟩ = .ok m ∧
      m.hasParseExport = true ∧ (["z"] : List String)[0]? = some x ∧
      (JVal.num 7) = m.parseImpl x) := by
  have h1 := rustWasm_unavailable_rejects ⟨none, none, none⟩ ["z"]
  have h2 := rustWasm_unavailable_rejects
    ⟨some ⟨false, true, true, fun _ => .num 7⟩, none, none⟩ ["z"]
  refine ⟨h1.1 rfl, ?_, ?_⟩
  · refine h1.2.2.2.1 .loadFailed (h1.1 rfl) (.error .loadFailed) ?_
    rw [parseRuns_of_error .loadFailed ["z"] _
      (by simp [RustWasmAdapter.construct, h1.1 rfl])]
    simp
  · refine h2.2.2.2.2 0 (.num 7) ?_
    rw [parseRuns_construct_ok
      ⟨some ⟨false, true, true, fun _ => .num 7⟩, none, none⟩
      ⟨false, true, true, fun _ => .num 7⟩ ["z"] rfl]
    simp

/-! ## C7: the normalizing adapter is the plain adapter plus normalization -/

/-- C7: for every third-party parser behavior `lib` and every input, the
normalizing `FastXmlParserAdapter`'s result is exactly
`normalizeToXml2jsFormat` applied to the plain variant's result, and the two
constructors configure the parser with identical options. -/
theorem fxp_adapter_is_normalized_plain (lib : FxpOptions → String → JVal)
    (xml : String) :
    FastXmlParserAdapter.parse lib xml =
      normalizeToXml2jsFormat (FastXmlParserAdapterPlain.parse lib xml) ∧
    fxpAdapterOptions = fxpPlainAdapterOptions :=
  ⟨rfl, rfl⟩

/-! ## C8: adapter equivalence after canonicalization -/

/-- C8 counterexample: the canonicalized outputs of the two modelled adapter
variants differ on boolean-looking text (variant A's library coerces it,
variant B's leaves it a string and the canonicalizer does not coerce) and on
repeated text children (already sequences, so the canonicalizer re-wraps each
scalar item, which variant A never does). -/
theorem adapters_equiv_cex :
    xml2jsTree (.elem [] [("x", [.text "true"])]) ≠
      normalizeToXml2jsFormat (fxpTree (.elem [] [("x", [.text "true"])])) ∧
    xml2jsTree (.elem [] [("a", [.text "one", .text "two"])]) ≠
      normalizeToXml2jsFormat
        (fxpTree (.elem [] [("a", [.text "one", .text "two"])])) := by
  constructor
  · intro h
    rw [show xml2jsTree (.elem [] [("x", [.text "true"])]) =
        JVal.obj [("$", .obj []), ("x", .arr [.bool true])] from rfl,
      show normalizeToXml2jsFormat (fxpTree (.elem [] [("x", [.text "true"])])) =
        JVal.obj [("$", .obj []), ("x", .arr [.str "true"])] from rfl] at h
    simp at h
  · intro h
    rw [show xml2jsTree (.elem [] [("a", [.text "one", .text "two"])]) =
        JVal.obj [("$", .obj []), ("a", .arr [.str "one", .str "two"])] from rfl,
      show normalizeToXml2jsFormat
          (fxpTree (.elem [] [("a", [.text "one", .text "two"])])) =
        JVal.obj [("$", .obj []),
          ("a", .arr [.arr [.str "one"], .arr [.str "two"]])] from rfl] at h
    simp at h

theorem eqSafeList_iff (l : List RawXml) :
    eqSafeList l = true ↔ ∀ k ∈ l, eqSafe k = true := by
  induction l with
  | nil => simp [eqSafeList]
  | cons k rest ih => simp [eqSafeList, ih]

theorem normalizeItems_fxpList (ks : List RawXml)
    (h : ∀ k ∈ ks, xml2jsTree k = normalizeToXml2jsFormat (fxpTree k)) :
    normalizeItems (fxpList ks) = xml2jsList ks := by
  induction ks with
  | nil => rfl
  | cons k rest ih =>
    have hk := h k (List.mem_cons_self _ _)
    have hr := ih fun w hw => h w (List.mem_cons_of_mem _ hw)
    show normalizeToXml2jsFormat (fxpTree k) :: normalizeItems (fxpList rest) =
      xml2jsTree k :: xml2jsList rest
    rw [hk, hr]

theorem xml2jsChildren_eq_normalized (children : List (String × List RawXml))
    (hch : eqSafeChildren children = true)
    (ih : ∀ p ∈ children, ∀ k ∈ p.2, eqSafe k = true →
      xml2jsTree k = normalizeToXml2jsFormat (fxpTree k)) :
    xml2jsChildren children = normalizeEntries (fxpChildren children) := by
  induction children with
  | nil => rfl
  | cons pr rest ihr =>
    obtain ⟨tag, kids⟩ := pr
    have h3 := hch
    simp only [eqSafeChildren, Bool.and_eq_true, Bool.not_eq_true',
      beq_eq_false_iff_ne, ne_eq] at h3
    obtain ⟨htag, hkids, hrest⟩ := h3
    have htail := ihr hrest fun p hp => ih p (List.mem_cons_of_mem _ hp)
    show (tag, .arr (xml2jsList kids)) :: xml2jsChildren rest =
      (tag, normalizeEntryValue tag (fxpCollapse kids)) ::
        normalizeEntries (fxpChildren rest)
    have hval : JVal.arr (xml2jsList kids) =
        normalizeEntryValue tag (fxpCollapse kids) := by
      cases kids with
      | nil =>
        show JVal.arr (xml2jsList []) = normalizeEntryValue tag (.arr [])
        simp [normalizeEntryValue, htag, xml2jsList, normalizeItems]
      | cons k1 ktail =>
        cases ktail with
        | nil =>
          cases k1 with
          | text s =>
            have hs : (!(s == "true") && !(s == "false")) = true := hkids
            simp only [Bool.and_eq_true, Bool.not_eq_true',
              beq_eq_false_iff_ne, ne_eq] at hs
            obtain ⟨hs1, hs2⟩ := hs
            show JVal.arr (xml2jsList [.text s]) =
              normalizeEntryValue tag (fxpTree (.text s))
            simp [xml2jsList, xml2jsTree, coerceBooleans, hs1, hs2, fxpTree,
              normalizeEntryValue, htag]
          | elem a c =>
            have hk1 : eqSafe (.elem a c) = true := hkids
            have he := ih (tag, [.elem a c]) (List.mem_cons_self _ _)
              (.elem a c) (List.mem_cons_self _ _) hk1
            show JVal.arr (xml2jsList [.elem a c]) =
              normalizeEntryValue tag (fxpTree (.elem a c))
            rw [show xml2jsList [RawXml.elem a c] = [xml2jsTree (.elem a c)]
              from rfl, he]
            show JVal.arr [normalizeToXml2jsFormat
                (JVal.obj (("$", rawAttrs a) :: fxpChildren c))] =
              normalizeEntryValue tag
                (JVal.obj (("$", rawAttrs a) :: fxpChildren c))
            simp [normalizeEntryValue, htag, normalizeToXml2jsFormat]
        | cons k2 ks =>
          have hk : (eqSafe k1 && (eqSafe k2 && eqSafeList ks)) = true := hkids
          simp only [Bool.and_eq_true] at hk
          obtain ⟨h1, h2, h3'⟩ := hk
          have e1 := ih (tag, k1 :: k2 :: ks) (List.mem_cons_self _ _) k1
            (by simp) h1
          have e2 := ih (tag, k1 :: k2 :: ks) (List.mem_cons_self _ _) k2
            (by simp) h2
          have etail : normalizeItems (fxpList ks) = xml2jsList ks :=
            normalizeItems_fxpList ks fun k hk' =>
              ih (tag, k1 :: k2 :: ks) (List.mem_cons_self _ _) k
                (by simp [hk']) ((eqSafeList_iff ks).mp h3' k hk')
          show JVal.arr (xml2jsList (k1 :: k2 :: ks)) =
            normalizeEntryValue tag
              (.arr (fxpTree k1 :: fxpTree k2 :: fxpList ks))
          simp [normalizeEntryValue, htag, normalizeItems, xml2jsList,
            e1, e2, etail]
    rw [hval, htail]

/-- C8 amended: adapter equivalence holds after canonicalization — but only
for raw inputs in which no element tag is the reserved attributes key `'$'`
and every text node is the only occurrence under its tag and is not
boolean-looking.  Boolean-looking text (coerced by variant A's library only)
and text among repeated children (re-wrapped by the canonicalizer) make the
canonicalized outputs differ, as the counterexample shows. -/
theorem adapters_equiv_eqSafe (doc : RawXml) (h : eqSafe doc = true) :
    xml2jsTree doc = normalizeToXml2jsFormat (fxpTree doc) := by
  induction doc using RawXml.elemInduction with
  | htext s => simp [eqSafe] at h
  | helem attrs children ih =>
    have hch : eqSafeChildren children = true := by simpa [eqSafe] using h
    show JVal.obj (("$", rawAttrs attrs) :: xml2jsChildren children) =
      JVal.obj (("$", rawAttrs attrs) ::
        normalizeEntries (fxpChildren children))
    exact congrArg (fun l => JVal.obj (("$", rawAttrs attrs) :: l))
      (xml2jsChildren_eq_normalized children hch ih)

/-- C8 amended, witnessed on a concrete snapshot-like document with
attributes, a single text title and a repeated element child. -/
theorem adapters_equiv_eqSafe_witness :
    eqSafe (.elem [("key", "1")] [("title", [.text "Cam1"]),
        ("overlay", [.elem [] [], .elem [] []])]) = true ∧
    xml2jsTree (.elem [("key", "1")] [("title", [.text "Cam1"]),
        ("overlay", [.elem [] [], .elem [] []])]) =
      normalizeToXml2jsFormat (fxpTree (.elem [("key", "1")]
        [("title", [.text "Cam1"]), ("overlay", [.elem [] [], .elem [] []])])) :=
  ⟨rfl, adapters_equiv_eqSafe _ rfl⟩

end VmixSpec
